import Mathlib

/-!
Shallow embedding of the OVRLipSync-Enhanced-UE5 post-processing pipeline
(Source/OVRLipSync/Private/CookFrameSequenceAsync.cpp and
Source/OVRLipSync/Private/AudioConverterLibrary.cpp).

Float values are modelled as rationals (exact arithmetic); machine ints as
Int/Nat with explicit two's-complement conversion where the code casts raw
bytes.  Lists model TArray, with list index 0 = array index 0.
-/

namespace OVRLS

/-- Indexed map: mapWithIndex g n [a0, a1, ...] = [g n a0, g (n+1) a1, ...].
Models the C++ loops that carry an explicit element index. -/
def mapWithIndex {α β : Type} (g : ℕ → α → β) : ℕ → List α → List β
  | _, [] => []
  | n, a :: as => g n a :: mapWithIndex g (n + 1) as

/-! ## AudioConverterLibrary.cpp -/

/-- Little-endian 16-bit read at byte offset k, as the unsigned value
(models the C++ cast to int16 through memory on a little-endian target). -/
def readLE16 (data : List ℕ) (k : ℕ) : ℕ :=
  data.getD k 0 + 256 * data.getD (k + 1) 0

/-- Little-endian 32-bit read at byte offset k, as the unsigned value. -/
def readLE32 (data : List ℕ) (k : ℕ) : ℕ :=
  readLE16 data k + 65536 * readLE16 data (k + 2)

/-- Reinterpret an unsigned 16-bit value as a two's-complement int16. -/
def toInt16 (u : ℕ) : ℤ :=
  if u < 32768 then (u : ℤ) else (u : ℤ) - 65536

/-- Reinterpret an unsigned 32-bit value as a two's-complement int32. -/
def toInt32 (u : ℕ) : ℤ :=
  if u < 2147483648 then (u : ℤ) else (u : ℤ) - 4294967296

/-- WAV parameters extracted by UAudioConverterLibrary::ParseWavHeader /
defaulted by SetSoundFromDisk. -/
structure WavParams where
  sampleRate : ℤ
  numChannels : ℤ
  bitsPerSample : ℤ
  headerSize : ℕ
deriving DecidableEq

/-- UAudioConverterLibrary::ParseWavHeader: fails iff the buffer length is
at most 44; otherwise reads SampleRate from bytes 24..27 (int32),
NumChannels from bytes 22..23 (int16), BitsPerSample from bytes 34..35
(int16), and sets HeaderSize = 44.  No field is validated. -/
def ParseWavHeader (data : List ℕ) : Option WavParams :=
  if data.length ≤ 44 then none
  else some ⟨toInt32 (readLE32 data 24), toInt16 (readLE16 data 22),
             toInt16 (readLE16 data 34), 44⟩

/-- The default parameters SetSoundFromDisk assumes when ParseWavHeader
fails (16-bit stereo WAV at 44.1kHz, 44-byte header). -/
def defaultWavParams : WavParams := ⟨44100, 2, 16, 44⟩

/-- The parameter-determination logic of UAudioConverterLibrary::SetSoundFromDisk:
use the parsed header when ParseWavHeader succeeds, else the defaults. -/
def soundParamsFromData (data : List ℕ) : WavParams :=
  match ParseWavHeader data with
  | some p => p
  | none => defaultWavParams

/-! ## CookFrameSequenceAsync.cpp -/

/-- EVisemeType from CookFrameSequenceAsync.cpp. -/
inductive EVisemeType where
  | Vowel
  | Consonant
  | Other
deriving DecidableEq

/-- GetVisemeType: indices 10..14 are vowels, 1..9 consonants, others Other. -/
def GetVisemeType (i : ℕ) : EVisemeType :=
  if 10 ≤ i ∧ i ≤ 14 then .Vowel
  else if 1 ≤ i ∧ i ≤ 9 then .Consonant
  else .Other

/-- NumInterpolationFrames = FMath::Clamp(Settings.MaxInterpolationFrames, 1, 24). -/
def numInterpFrames (m : ℤ) : ℕ := (if m < 1 then 1 else if 24 < m then 24 else m).toNat

/-- The raw-frame generation loop "for (offs = 0; offs + ChunkSize < PCMDataSize;
offs += ChunkSize)" counted with explicit fuel (the loop body adds exactly one
frame per iteration, so the frame count is the iteration count). -/
def cookFrameCountFuel (C P : ℕ) : ℕ → ℕ → ℕ
  | 0, _ => 0
  | fuel + 1, offs => if offs + C < P then cookFrameCountFuel C P fuel (offs + C) + 1 else 0

/-- Number of raw frames produced from chunk size C and PCM sample count P;
fuel P is sufficient for C at least 1 since offs strictly increases. -/
def cookFrameCount (C P : ℕ) : ℕ := cookFrameCountFuel C P P 0

/-! ### Step 1: short-activation filter (per viseme channel) -/

/-- One channel column of the short-viseme filter, with the currently open
run of values above 0.5 carried as an accumulator.  When a value at most 0.5
closes a run, the run is replaced by zeroes when strictly shorter than
MinHoldFrames, else kept; a run still open when the sequence ends is emitted
unmodified, exactly as the C++ loop which performs no flush after the scan. -/
def filterColAux (minHold : ℤ) (run : List ℚ) : List ℚ → List ℚ
  | [] => run
  | v :: rest =>
      if 1 / 2 < v then filterColAux minHold (run ++ [v]) rest
      else
        (if (run.length : ℤ) < minHold then List.replicate run.length 0 else run) ++
          v :: filterColAux minHold [] rest

/-- Step 1 of UCookFrameSequenceAsync::Activate applied to one channel column. -/
def filterCol (minHold : ℤ) (col : List ℚ) : List ℚ := filterColAux minHold [] col

/-! ### Step 2: block clustering with priority -/

/-- VisemePriority map from the source; absent indices default to 1.0
(the "Contains ? map[j] : 1.0f" read). -/
def visemePriority (j : ℕ) : ℚ :=
  if j = 10 then 1
  else if j = 11 then 3 / 5
  else if j = 12 then 1 / 2
  else if j = 13 then 9 / 10
  else if j = 14 then 1
  else if j = 1 then 9 / 10
  else if j = 2 then 7 / 10
  else if j = 3 then 3 / 5
  else if j = 4 then 7 / 10
  else if j = 5 then 7 / 10
  else if j = 6 then 4 / 5
  else if j = 7 then 3 / 5
  else if j = 8 then 7 / 10
  else if j = 9 then 9 / 10
  else 1

/-- RawVisemeFrames[f][j] with the TArray modelled as a list of rows. -/
def val (frames : List (List ℚ)) (f j : ℕ) : ℚ := (frames.getD f []).getD j 0

/-- Sum of channel j over frames lo..hi-1 (the per-block per-channel Sum loop). -/
def colSum (frames : List (List ℚ)) (lo hi j : ℕ) : ℚ :=
  ((List.range' lo (hi - lo)).map (fun f => val frames f j)).sum

/-- The "if (value > PeakValue) PeakValue = value" fold, starting from 0. -/
def peakFold (vals : List ℚ) : ℚ :=
  vals.foldl (fun p v => if p < v then v else p) 0

/-- Unweighted peak of channel j over frames lo..hi-1. -/
def peakCol (frames : List (List ℚ)) (lo hi j : ℕ) : ℚ :=
  peakFold ((List.range' lo (hi - lo)).map (fun f => val frames f j))

/-- The dominant-selection loop: state (DominantIndex, MaxSum) starting at
(-1, 0), updated when Sum > MaxSum; j is the next channel index. -/
def selectDominantAux : ℤ → ℚ → ℕ → List ℚ → ℤ × ℚ
  | bi, bs, _, [] => (bi, bs)
  | bi, bs, j, s :: rest =>
      if bs < s then selectDominantAux (j : ℤ) s (j + 1) rest
      else selectDominantAux bi bs (j + 1) rest

/-- DominantIndex and MaxSum for a given list of weighted channel sums. -/
def selectDominant (sums : List ℚ) : ℤ × ℚ := selectDominantAux (-1) 0 0 sums

/-- Per-channel priority-weighted sums of a block; the channel count is
RawVisemeFrames[0].Num() as in the source. -/
def blockSums (frames : List (List ℚ)) (lo hi : ℕ) : List ℚ :=
  (List.range (frames.getD 0 []).length).map (fun j => colSum frames lo hi j * visemePriority j)

/-- Number of blocks the "for (blockStart = 0; blockStart < Num; blockStart +=
NumInterpolationFrames)" loop visits: ceil(len / N) for N at least 1. -/
def numBlocks (N len : ℕ) : ℕ := (len + N - 1) / N

/-- The (BlockDominants[b], BlockPeaks[b]) entry appended for block b:
(-1, 0) when no channel has weighted sum above 0, else the winning channel
and its unweighted peak over the block. -/
def blockPair (N : ℕ) (frames : List (List ℚ)) (b : ℕ) : ℤ × ℚ :=
  let lo := b * N
  let hi := min (lo + N) frames.length
  let ds := selectDominant (blockSums frames lo hi)
  if ds.1 < 0 then (-1, 0) else (ds.1, peakCol frames lo hi ds.1.toNat)

/-- BlockDominants after step 2. -/
def blockDominants (N : ℕ) (frames : List (List ℚ)) : List ℤ :=
  (List.range (numBlocks N frames.length)).map (fun b => (blockPair N frames b).1)

/-- BlockPeaks after step 2. -/
def blockPeaks (N : ℕ) (frames : List (List ℚ)) : List ℚ :=
  (List.range (numBlocks N frames.length)).map (fun b => (blockPair N frames b).2)

/-! ### Step 3: scaled dominant viseme per block, neighbor preservation -/

/-- FMath::Clamp(x, 0.0f, 1.0f). -/
def clamp01 (x : ℚ) : ℚ := max 0 (min x 1)

/-- PrevDominant for block b: BlockDominants[b-1] when b > 0, else -1. -/
def prevDom (doms : List ℤ) (b : ℕ) : ℤ :=
  if 0 < b then doms.getD (b - 1) (-1) else -1

/-- NextDominant for block b: BlockDominants[b+1] when b is not last, else -1. -/
def nextDom (doms : List ℤ) (b : ℕ) : ℤ :=
  if b + 1 < doms.length then doms.getD (b + 1) (-1) else -1

/-- The neighbor-preservation part of bPreserve for channel j at frame f of
block b: previous dominant in the first half of a non-first block, next
dominant in the second half of a non-last block. -/
def preserveNb (N : ℕ) (doms : List ℤ) (b f j : ℕ) : Bool :=
  (decide ((j : ℤ) = prevDom doms b) && decide (f % N < N / 2) && !(b == 0)) ||
  (decide ((j : ℤ) = nextDom doms b) && decide (N / 2 ≤ f % N) && !(b + 1 == doms.length))

/-- Step 3 transform of the row at frame index f: the whole block is skipped
(row unchanged) when its recorded peak is at most 0.0001; otherwise the
dominant channel is rescaled by 1/peak and clamped, preserved neighbor
channels keep their value, and every other channel is set to 0. -/
def normRow (N : ℕ) (doms : List ℤ) (peaks : List ℚ) (f : ℕ) (row : List ℚ) : List ℚ :=
  let b := f / N
  let dom := doms.getD b (-1)
  let peak := peaks.getD b 0
  if peak ≤ 1 / 10000 then row
  else
    mapWithIndex (fun j v =>
      if (j : ℤ) = dom then clamp01 (v * (1 / peak))
      else if preserveNb N doms b f j then v
      else 0) 0 row

/-- Step 3 applied to the whole frame sequence. -/
def normFrames (N : ℕ) (doms : List ℤ) (peaks : List ℚ) (frames : List (List ℚ)) :
    List (List ℚ) :=
  mapWithIndex (fun f row => normRow N doms peaks f row) 0 frames

/-! ### Step 4: final smoothing -/

/-- Weight of the history frame at 0-based buffer position j:
1 - (j+1)/(NumInterpolationFrames+1). -/
def histWeight (N j : ℕ) : ℚ := 1 - ((j : ℚ) + 1) / ((N : ℚ) + 1)

/-- Sum over the history buffer of FrameBuffer[j][i] * Weight(j), with j the
0-based buffer position starting at the given index. -/
def weightedHistSum (N i : ℕ) : ℕ → List (List ℚ) → ℚ
  | _, [] => 0
  | j, h :: rest => h.getD i 0 * histWeight N j + weightedHistSum N i (j + 1) rest

/-- Sum over the history buffer of Weight(j). -/
def totalHistWeight (N : ℕ) : ℕ → List (List ℚ) → ℚ
  | _, [] => 0
  | j, _ :: rest => histWeight N j + totalHistWeight N (j + 1) rest

/-- The per-channel smoothing body: weighted average of the current value
(weight 1) and the history, with the optional strict-consonant rescale for
consonant channels whose current value exceeds 0.5. -/
def smoothChannel (strict : Bool) (N : ℕ) (buf : List (List ℚ)) (i : ℕ) (v : ℚ) : ℚ :=
  let value := (v + weightedHistSum N i 0 buf) / (1 + totalHistWeight N 0 buf)
  if strict && decide (GetVisemeType i = .Consonant) && decide (1 / 2 < v) then
    clamp01 (value * (1 / v))
  else value

/-- One iteration of the step-4 loop: the emitted frame is the smoothed frame
when interpolation is enabled and the buffer is non-empty, else the input
frame; then the input frame (Current) is inserted at buffer position 0 and
the last buffer entry is removed when the buffer exceeds N entries. -/
def smoothStep (e strict : Bool) (N : ℕ) (buf : List (List ℚ)) (cur : List ℚ) :
    List ℚ × List (List ℚ) :=
  let out := if e && !buf.isEmpty then mapWithIndex (smoothChannel strict N buf) 0 cur else cur
  let buf2 := cur :: buf
  (out, if N < buf2.length then buf2.dropLast else buf2)

/-- The full step-4 loop from a given starting buffer: returns the emitted
frames in order and the final buffer. -/
def runSmoother (e strict : Bool) (N : ℕ) :
    List (List ℚ) → List (List ℚ) → List (List ℚ) × List (List ℚ)
  | buf, [] => ([], buf)
  | buf, cur :: rest =>
      let p := smoothStep e strict N buf cur
      let q := runSmoother e strict N p.2 rest
      (p.1 :: q.1, q.2)

/-- Sequence assembly: each emitted frame is paired with the raw laughter
score of the same frame index (Sequence->Add(..., LaughterScores[f])). -/
def assembleSeq (e strict : Bool) (N : ℕ) (frames : List (List ℚ)) (laughs : List ℚ) :
    List (List ℚ × ℚ) :=
  ((runSmoother e strict N [] frames).1).zip laughs

/-! ## Theorems -/

/-- C10: ParseWavHeader fails exactly on buffers of length at most 44, and on
any longer buffer succeeds regardless of contents, reading SampleRate from
bytes 24..27, NumChannels from bytes 22..23, BitsPerSample from bytes 34..35,
and setting HeaderSize to 44. -/
theorem claim_C10_parse_header (data : List ℕ) :
    (ParseWavHeader data = none ↔ data.length ≤ 44) ∧
    (44 < data.length →
      ParseWavHeader data = some ⟨toInt32 (readLE32 data 24), toInt16 (readLE16 data 22),
        toInt16 (readLE16 data 34), 44⟩) := by
  by_cases h : data.length ≤ 44
  · exact ⟨by simp [ParseWavHeader, h], fun hlt => absurd h (by omega)⟩
  · exact ⟨by simp [ParseWavHeader, h], fun _ => by simp [ParseWavHeader, h]⟩

/-- Witness for C10 on a concrete 100-byte all-zero buffer and a concrete
short buffer. -/
theorem claim_C10_parse_header_witness :
    ParseWavHeader (List.replicate 100 0) = some ⟨0, 0, 0, 44⟩ ∧
    ParseWavHeader (List.replicate 10 0) = none := by
  constructor
  · rw [(claim_C10_parse_header (List.replicate 100 0)).2 (by decide)]; decide
  · exact (claim_C10_parse_header (List.replicate 10 0)).1.mpr (by decide)

/-- C3 counterexample: a 100-byte buffer with a corrupted header (all zero
bytes, so no RIFF/WAVE markers) does NOT fall back to the default parameters;
ParseWavHeader accepts it and the garbage values (sample rate 0, 0 channels,
0 bits) are used instead of 44100 Hz / 2 channels / 16 bits. -/
theorem claim_C3_counterexample :
    (List.replicate 100 (0 : ℕ)).length = 100 ∧
    soundParamsFromData (List.replicate 100 0) = ⟨0, 0, 0, 44⟩ ∧
    soundParamsFromData (List.replicate 100 0) ≠ defaultWavParams := by decide

/-- C3 amended: the default-parameter fallback in SetSoundFromDisk triggers
exactly when the buffer length is at most 44 (the only way ParseWavHeader
fails); for every longer buffer, corrupted or not, the raw header bytes are
used unvalidated. -/
theorem claim_C3_fallback (data : List ℕ) :
    (data.length ≤ 44 → soundParamsFromData data = defaultWavParams) ∧
    (44 < data.length → soundParamsFromData data =
      ⟨toInt32 (readLE32 data 24), toInt16 (readLE16 data 22),
        toInt16 (readLE16 data 34), 44⟩) := by
  by_cases h : data.length ≤ 44
  · exact ⟨fun _ => by simp [soundParamsFromData, ParseWavHeader, h],
      fun hlt => absurd h (by omega)⟩
  · exact ⟨fun hle => absurd hle h,
      fun _ => by simp [soundParamsFromData, ParseWavHeader, h]⟩

/-- Witness for C3 amended at concrete buffers on both sides of the length 44
boundary. -/
theorem claim_C3_fallback_witness :
    soundParamsFromData (List.replicate 44 0) = defaultWavParams ∧
    soundParamsFromData (List.replicate 45 0) = ⟨0, 0, 0, 44⟩ := by
  constructor
  · exact (claim_C3_fallback (List.replicate 44 0)).1 (by decide)
  · rw [(claim_C3_fallback (List.replicate 45 0)).2 (by decide)]; decide

/-- The chunk loop with chunk size C at least 1 runs (P - offs - 1) / C times
when given at least P - offs fuel. -/
theorem cookFrameCountFuel_spec (C : ℕ) (hC : 1 ≤ C) :
    ∀ fuel offs P : ℕ, P ≤ offs + fuel →
      cookFrameCountFuel C P fuel offs = (P - offs - 1) / C := by
  intro fuel
  induction fuel with
  | zero =>
      intro offs P h
      have h0 : P - offs - 1 = 0 := by omega
      simp [cookFrameCountFuel, h0]
  | succ n ih =>
      intro offs P h
      by_cases hlt : offs + C < P
      · have hrec := ih (offs + C) P (by omega)
        have hle : C ≤ P - offs - 1 := by omega
        have harith : P - (offs + C) - 1 = P - offs - 1 - C := by omega
        rw [cookFrameCountFuel, if_pos hlt, hrec, harith,
          Nat.div_eq_sub_div (by omega) hle]
      · have hsmall : P - offs - 1 < C := by omega
        rw [cookFrameCountFuel, if_neg hlt, Nat.div_eq_of_lt hsmall]

/-- C4 counterexample: with 2 channels and 2 samples per chunk (chunk size 4)
and a PCM buffer of exactly 4 samples (an exact multiple of the chunk size),
the claim predicts 4 / 4 = 1 frame, but the loop condition
"offs + ChunkSize < PCMDataSize" is strict, so 0 frames are produced. -/
theorem claim_C4_counterexample :
    cookFrameCount (2 * 2) 4 = 0 ∧ 4 % (2 * 2) = 0 ∧ 4 / (2 * 2) = 1 ∧ (0 : ℕ) ≠ 1 := by
  decide

/-- C4 amended: for chunk size = channels * samplesPerChunk at least 1, the
number of raw frames equals (totalSamples - 1) / chunkSize in natural-number
division: floor(total / chunk) whenever chunk does not divide total, and one
less than total / chunk on exact multiples (the strict loop bound drops the
final full chunk as well as any partial one). -/
theorem claim_C4_frame_count (numChannels chunkSamples P : ℕ)
    (hch : 1 ≤ numChannels) (hcs : 1 ≤ chunkSamples) :
    cookFrameCount (numChannels * chunkSamples) P = (P - 1) / (numChannels * chunkSamples) := by
  have hC : 1 ≤ numChannels * chunkSamples := Nat.one_le_iff_ne_zero.mpr (by positivity)
  have h := cookFrameCountFuel_spec (numChannels * chunkSamples) hC P 0 P (by omega)
  simpa [cookFrameCount] using h

/-- Witness for C4 amended: 2 channels, 2 samples per chunk, 10 PCM samples
give (10 - 1) / 4 = 2 frames. -/
theorem claim_C4_frame_count_witness :
    cookFrameCount (2 * 2) 10 = (10 - 1) / (2 * 2) ∧ (10 - 1) / (2 * 2) = 2 :=
  ⟨claim_C4_frame_count 2 2 10 (by decide) (by decide), by decide⟩

/-- With interpolation disabled the smoother emits every input frame
unchanged, from any starting history buffer. -/
theorem runSmoother_disabled_outputs (strict : Bool) (N : ℕ) :
    ∀ (frames buf : List (List ℚ)), (runSmoother false strict N buf frames).1 = frames := by
  intro frames
  induction frames with
  | nil => intro buf; rfl
  | cons cur rest ih => intro buf; simp [runSmoother, smoothStep, ih]

/-- C9: with enableInterpolation = false the temporal smoother is the
identity: every emitted frame equals the corresponding filtered/clustered
input frame, and the assembled sequence pairs exactly the input frames with
their unchanged laughter scores. -/
theorem claim_C9_smoother_identity (strict : Bool) (N : ℕ) (frames : List (List ℚ))
    (laughs : List ℚ) :
    (runSmoother false strict N [] frames).1 = frames ∧
    assembleSeq false strict N frames laughs = frames.zip laughs := by
  refine ⟨runSmoother_disabled_outputs strict N frames [], ?_⟩
  simp [assembleSeq, runSmoother_disabled_outputs]

/-- C2 counterexample: with window 1, input frames [1] then [0], the second
emitted (smoothed) frame is [1/3], but the history after the loop holds the
pre-smoothing input frame [0], not the smoothed frame [1/3]. -/
theorem claim_C2_counterexample :
    (runSmoother true false 1 [] [[1], [0]]).1 = [[1], [1 / 3]] ∧
    (runSmoother true false 1 [] [[1], [0]]).2 = [[0]] ∧
    ([(0 : ℚ)] : List ℚ) ≠ [1 / 3] := by
  refine ⟨?_, ?_, by norm_num⟩ <;>
    norm_num [runSmoother, smoothStep, mapWithIndex, smoothChannel, weightedHistSum,
      totalHistWeight, histWeight, GetVisemeType, clamp01, List.dropLast]

/-- C2 amended: after each frame the buffer becomes the PRE-smoothing input
frame consed onto the old history, truncated to at most N entries by
dropping the oldest; in particular its head is the input frame, never the
smoothed output. -/
theorem claim_C2_history (e strict : Bool) (m : ℤ) (N : ℕ) (buf : List (List ℚ))
    (cur : List ℚ) (hNm : N = numInterpFrames m) (hN : 1 ≤ N) (hlen : buf.length ≤ N) :
    (smoothStep e strict N buf cur).2 = (cur :: buf).take N ∧
    (smoothStep e strict N buf cur).2.length = min (buf.length + 1) N ∧
    (smoothStep e strict N buf cur).2.head? = some cur := by
  obtain ⟨M, rfl⟩ : ∃ M, N = M + 1 := ⟨N - 1, by omega⟩
  by_cases hx : M + 1 < buf.length + 1
  · have hb : buf.length = M + 1 := by omega
    have h2 : (smoothStep e strict (M + 1) buf cur).2 = (cur :: buf).dropLast := by
      simp only [smoothStep, List.length_cons]
      rw [if_pos (by omega)]
    rw [h2, List.dropLast_eq_take]
    refine ⟨by simp [hb], ?_, ?_⟩
    · simp [hb]
    · simp [List.take_succ_cons, hb]
  · have h2 : (smoothStep e strict (M + 1) buf cur).2 = cur :: buf := by
      simp only [smoothStep, List.length_cons]
      rw [if_neg (by omega)]
    rw [h2, List.take_of_length_le (by simp; omega)]
    exact ⟨rfl, by simp; omega, rfl⟩

/-- Witness for C2 amended at a concrete step: window 2, one-frame history. -/
theorem claim_C2_history_witness :
    (smoothStep true false 2 [[1]] [0]).2 = ([([0] : List ℚ), [1]]).take 2 ∧
    (smoothStep true false 2 [[1]] [0]).2.length = min 2 2 ∧
    (smoothStep true false 2 [[1]] [0]).2.head? = some [0] :=
  claim_C2_history true false 2 2 [[1]] [0] (by decide) (by norm_num) (by norm_num)

/-- One smoother step never grows the history beyond N entries. -/
theorem smoothStep_buf_length (e strict : Bool) (N : ℕ) (buf : List (List ℚ)) (cur : List ℚ)
    (hlen : buf.length ≤ N) : (smoothStep e strict N buf cur).2.length ≤ N := by
  simp only [smoothStep, List.length_cons]
  by_cases hx : N < buf.length + 1
  · rw [if_pos hx]; simp; omega
  · rw [if_neg hx]; simp; omega

/-- The smoother keeps the history bounded by N throughout a run. -/
theorem runSmoother_buf_length (e strict : Bool) (N : ℕ) :
    ∀ (frames buf : List (List ℚ)), buf.length ≤ N →
      ((runSmoother e strict N buf frames).2).length ≤ N := by
  intro frames
  induction frames with
  | nil => intro buf h; exact h
  | cons cur rest ih =>
      intro buf h
      exact ih _ (smoothStep_buf_length e strict N buf cur h)

/-- C8: with N = clamp(maxInterpolationFrames, 1, 24), the weight of the
history frame at 1-indexed lag j is 1 - j/(N+1); these weights strictly
decrease with lag, are all strictly below 1 (the current frame's weight),
and are strictly positive for every lag up to N; and the history the
smoother maintains never exceeds N frames, so every lag that occurs is in
1..N. -/
theorem claim_C8_weights (m : ℤ) (N : ℕ) (hN : N = numInterpFrames m) :
    (∀ j : ℕ, 1 ≤ j → histWeight N (j - 1) = 1 - (j : ℚ) / ((N : ℚ) + 1)) ∧
    (∀ j₁ j₂ : ℕ, 1 ≤ j₁ → j₁ < j₂ → histWeight N (j₂ - 1) < histWeight N (j₁ - 1)) ∧
    (∀ j : ℕ, 1 ≤ j → histWeight N (j - 1) < 1) ∧
    (∀ j : ℕ, 1 ≤ j → j ≤ N → 0 < histWeight N (j - 1)) ∧
    (∀ (e strict : Bool) (frames buf : List (List ℚ)), buf.length ≤ N →
      ((runSmoother e strict N buf frames).2).length ≤ N) := by
  have hden : (0 : ℚ) < (N : ℚ) + 1 := by positivity
  have hfor : ∀ j : ℕ, 1 ≤ j → histWeight N (j - 1) = 1 - (j : ℚ) / ((N : ℚ) + 1) := by
    intro j hj
    unfold histWeight
    rw [Nat.cast_sub hj]
    push_cast
    ring_nf
  refine ⟨hfor, ?_, ?_, ?_, fun e s frames buf h => runSmoother_buf_length e s N frames buf h⟩
  · intro j₁ j₂ hj₁ hlt
    rw [hfor j₁ hj₁, hfor j₂ (by omega)]
    have : (j₁ : ℚ) / ((N : ℚ) + 1) < (j₂ : ℚ) / ((N : ℚ) + 1) :=
      div_lt_div_of_pos_right (by exact_mod_cast hlt) hden
    linarith
  · intro j hj
    rw [hfor j hj]
    have h1 : (0 : ℚ) < (j : ℚ) / ((N : ℚ) + 1) :=
      div_pos (by exact_mod_cast hj) hden
    linarith
  · intro j hj hjN
    rw [hfor j hj]
    have h1 : (j : ℚ) / ((N : ℚ) + 1) < 1 := by
      rw [div_lt_one hden]
      have : (j : ℚ) ≤ (N : ℚ) := by exact_mod_cast hjN
      linarith
    linarith

/-- Witness for C8 at m = 6 (so N = 6) and concrete lags. -/
theorem claim_C8_weights_witness :
    histWeight 6 0 = 1 - (1 : ℚ) / 7 ∧ histWeight 6 1 < histWeight 6 0 ∧
    histWeight 6 0 < 1 ∧ 0 < histWeight 6 5 ∧
    ((runSmoother true true 6 [] [[1], [0]]).2).length ≤ 6 := by
  have h := claim_C8_weights 6 6 (by decide)
  exact ⟨(h.1 1 le_rfl).trans (by norm_num), h.2.1 1 2 le_rfl (by omega), h.2.2.1 1 le_rfl,
    h.2.2.2.1 6 (by omega) le_rfl, h.2.2.2.2 true true [[1], [0]] [] (by simp)⟩

/-- Consuming a block of values above 0.5 just extends the open run. -/
theorem filterColAux_open (mh : ℤ) :
    ∀ (xs run rest : List ℚ), (∀ x ∈ xs, 1 / 2 < x) →
      filterColAux mh run (xs ++ rest) = filterColAux mh (run ++ xs) rest := by
  intro xs
  induction xs with
  | nil => intro run rest _; simp
  | cons x xs ih =>
      intro run rest hall
      rw [List.cons_append, filterColAux, if_pos (hall x (by simp)),
        ih (run ++ [x]) rest (fun y hy => hall y (by simp [hy]))]
      simp

/-- A value at most 0.5 closes the open run: a short run is replaced by
zeroes, a long one kept, and scanning restarts with an empty run. -/
theorem filterColAux_close (mh : ℤ) (run : List ℚ) (v : ℚ) (hv : v ≤ 1 / 2)
    (rest : List ℚ) :
    filterColAux mh run (v :: rest) =
      (if (run.length : ℤ) < mh then List.replicate run.length 0 else run) ++
        v :: filterColAux mh [] rest := by
  rw [filterColAux, if_neg (not_lt.mpr hv)]

/-- The filter splits at any closing value: everything after an element at
most 0.5 is filtered independently of what came before. -/
theorem filterColAux_split (mh : ℤ) :
    ∀ (xs run : List ℚ) (v : ℚ) (rest : List ℚ), v ≤ 1 / 2 →
      filterColAux mh run (xs ++ v :: rest) =
        filterColAux mh run (xs ++ [v]) ++ filterColAux mh [] rest := by
  intro xs
  induction xs with
  | nil =>
      intro run v rest hv
      simp only [List.nil_append]
      rw [filterColAux_close mh run v hv rest, filterColAux_close mh run v hv []]
      simp [filterColAux]
  | cons x xs ih =>
      intro run v rest hv
      by_cases hx : 1 / 2 < x
      · rw [List.cons_append, filterColAux, if_pos hx, List.cons_append, filterColAux,
          if_pos hx, ih (run ++ [x]) v rest hv]
      · have hx2 : x ≤ 1 / 2 := not_lt.mp hx
        rw [List.cons_append, filterColAux_close mh run x hx2,
          List.cons_append, filterColAux_close mh run x hx2, ih [] v rest hv]
        simp

/-- C1 counterexample: a single-frame run above 0.5 still open at sequence
end, with minHoldFrames = 2: the claim says it is zeroed, but the code never
flushes a run that is still open when the scan ends, so the value survives. -/
theorem claim_C1_counterexample :
    filterCol 2 [3 / 5] = [3 / 5] ∧ (1 / 2 : ℚ) < 3 / 5 ∧ (1 : ℤ) < 2 ∧
      (3 / 5 : ℚ) ≠ 0 :=
  ⟨by norm_num [filterCol, filterColAux], by norm_num, by norm_num, by norm_num⟩

/-- C1 amended: for every maximal run of values above 0.5 (delimited on the
left by the sequence start or a value at most 0.5, likewise on the right):
a run CLOSED by a later value at most 0.5 is zeroed entirely when shorter
than minHoldFrames and kept unmodified otherwise, while a run still open at
the end of the sequence is always left unmodified, whatever its length. -/
theorem claim_C1_short_runs (mh : ℤ) (pre run : List ℚ)
    (hpre : pre = [] ∨ ∃ p v, pre = p ++ [v] ∧ v ≤ 1 / 2)
    (hrun : ∀ x ∈ run, 1 / 2 < x) :
    (filterCol mh (pre ++ run) = filterCol mh pre ++ run) ∧
    (∀ (w : ℚ) (post2 : List ℚ), w ≤ 1 / 2 →
      filterCol mh (pre ++ run ++ w :: post2) =
        filterCol mh pre ++
          ((if (run.length : ℤ) < mh then List.replicate run.length 0 else run) ++
            w :: filterCol mh post2)) := by
  have hmid : ∀ rest : List ℚ,
      filterCol mh (pre ++ rest) = filterCol mh pre ++ filterColAux mh [] rest := by
    intro rest
    rcases hpre with h | ⟨p, v, rfl, hv⟩
    · subst h; simp [filterCol, filterColAux]
    · unfold filterCol
      rw [List.append_assoc, List.singleton_append, filterColAux_split mh p [] v rest hv]
  constructor
  · have h1 := filterColAux_open mh run [] [] hrun
    simp only [List.append_nil, List.nil_append] at h1
    rw [hmid run, h1]
    simp [filterColAux]
  · intro w post2 hw
    have h1 := filterColAux_open mh run [] (w :: post2) hrun
    simp only [List.nil_append] at h1
    rw [List.append_assoc, hmid (run ++ w :: post2), h1,
      filterColAux_close mh run w hw post2]
    rfl

/-- Witness for C1 amended: minHoldFrames = 2, the closed short run [3/5]
between closing zeroes is zeroed while the rest is untouched. -/
theorem claim_C1_short_runs_witness :
    filterCol 2 [0, 3 / 5, 0, 7 / 10] = [0, 0, 0, 7 / 10] := by
  have h := (claim_C1_short_runs 2 [0] [3 / 5]
    (Or.inr ⟨[], 0, rfl, by norm_num⟩)
    (by intro x hx; rw [List.mem_singleton] at hx; subst hx; norm_num)).2
    0 [7 / 10] (by norm_num)
  refine Eq.trans (by rfl) (h.trans ?_)
  norm_num [filterCol, filterColAux]

/-- Index access into mapWithIndex. -/
theorem mapWithIndex_getElem? {α β : Type} (g : ℕ → α → β) :
    ∀ (l : List α) (n k : ℕ), (mapWithIndex g n l)[k]? = (l[k]?).map (g (n + k)) := by
  intro l
  induction l with
  | nil => intro n k; simp [mapWithIndex]
  | cons a as ih =>
      intro n k
      cases k with
      | zero => simp [mapWithIndex]
      | succ k =>
          have harith : n + 1 + k = n + (k + 1) := by omega
          simp only [mapWithIndex, List.getElem?_cons_succ]
          rw [ih (n + 1) k, harith]

/-- mapWithIndex preserves length. -/
theorem mapWithIndex_length {α β : Type} (g : ℕ → α → β) :
    ∀ (l : List α) (n : ℕ), (mapWithIndex g n l).length = l.length := by
  intro l
  induction l with
  | nil => intro n; rfl
  | cons a as ih => intro n; simp [mapWithIndex, ih]

/-- getD through mapWithIndex on a rational row with default 0. -/
theorem mapWithIndex_getD (g : ℕ → ℚ → ℚ) (row : List ℚ) (j : ℕ) :
    (mapWithIndex g 0 row).getD j 0 =
      if j < row.length then g j (row.getD j 0) else 0 := by
  rw [List.getD_eq_getElem?_getD, mapWithIndex_getElem?]
  by_cases h : j < row.length
  · rw [if_pos h, List.getElem?_eq_getElem h, List.getD_eq_getElem?_getD,
      List.getElem?_eq_getElem h]
    simp
  · rw [if_neg h, List.getElem?_eq_none (by omega)]
    rfl

/-- When no element beats the running maximum the selection state survives. -/
theorem selectDominantAux_const (bs : ℚ) :
    ∀ (sums : List ℚ) (bi : ℤ) (j : ℕ), (∀ s ∈ sums, s ≤ bs) →
      selectDominantAux bi bs j sums = (bi, bs) := by
  intro sums
  induction sums with
  | nil => intro bi j _; rfl
  | cons s rest ih =>
      intro bi j hall
      rw [selectDominantAux, if_neg (not_lt.mpr (hall s (by simp)))]
      exact ih bi (j + 1) (fun t ht => hall t (by simp [ht]))

/-- When some element beats the running maximum, the loop returns the first
index attaining the maximum of the list (and that maximum). -/
theorem selectDominantAux_argmax :
    ∀ (sums : List ℚ) (bi : ℤ) (bs : ℚ) (j : ℕ), (∃ s ∈ sums, bs < s) →
      ∃ k : ℕ, k < sums.length ∧
        selectDominantAux bi bs j sums = (((j + k : ℕ) : ℤ), sums.getD k 0) ∧
        bs < sums.getD k 0 ∧
        (∀ i < sums.length, sums.getD i 0 ≤ sums.getD k 0) ∧
        (∀ i < k, sums.getD i 0 < sums.getD k 0) := by
  intro sums
  induction sums with
  | nil => intro bi bs j h; simp at h
  | cons s rest ih =>
      intro bi bs j hex
      by_cases hs : bs < s
      · rw [selectDominantAux, if_pos hs]
        by_cases hrest : ∃ t ∈ rest, s < t
        · obtain ⟨k, hk, heq, hgt, hmax, hfirst⟩ := ih (j : ℤ) s (j + 1) hrest
          refine ⟨k + 1, by simpa using hk, ?_, ?_, ?_, ?_⟩
          · rw [heq, List.getD_cons_succ]
            have : j + 1 + k = j + (k + 1) := by omega
            rw [this]
          · rw [List.getD_cons_succ]; exact lt_trans hs hgt
          · intro i hi
            cases i with
            | zero => rw [List.getD_cons_zero, List.getD_cons_succ]; exact le_of_lt hgt
            | succ i =>
                rw [List.getD_cons_succ, List.getD_cons_succ]
                exact hmax i (by simpa using hi)
          · intro i hi
            cases i with
            | zero => rw [List.getD_cons_zero, List.getD_cons_succ]; exact hgt
            | succ i =>
                rw [List.getD_cons_succ, List.getD_cons_succ]
                exact hfirst i (by omega)
        · push_neg at hrest
          rw [selectDominantAux_const s rest (j : ℤ) (j + 1) hrest]
          refine ⟨0, by simp, by simp, by simpa using hs, ?_, by omega⟩
          intro i hi
          cases i with
          | zero => exact le_refl _
          | succ i =>
              rw [List.getD_cons_succ, List.getD_cons_zero]
              have hlen : i < rest.length := by simpa using hi
              have hmem : rest.getD i 0 ∈ rest := by
                rw [List.getD_eq_getElem?_getD, List.getElem?_eq_getElem hlen]
                simpa using List.getElem_mem hlen
              exact hrest _ hmem
      · have hs2 : s ≤ bs := not_lt.mp hs
        rw [selectDominantAux, if_neg hs]
        have hex2 : ∃ t ∈ rest, bs < t := by
          rcases hex with ⟨t, ht, hbt⟩
          rcases List.mem_cons.mp ht with rfl | hmem
          · exact absurd hbt hs
          · exact ⟨t, hmem, hbt⟩
        obtain ⟨k, hk, heq, hgt, hmax, hfirst⟩ := ih bi bs (j + 1) hex2
        refine ⟨k + 1, by simpa using hk, ?_, ?_, ?_, ?_⟩
        · rw [heq, List.getD_cons_succ]
          have : j + 1 + k = j + (k + 1) := by omega
          rw [this]
        · rw [List.getD_cons_succ]; exact hgt
        · intro i hi
          cases i with
          | zero =>
              rw [List.getD_cons_zero, List.getD_cons_succ]
              exact le_of_lt (lt_of_le_of_lt hs2 hgt)
          | succ i =>
              rw [List.getD_cons_succ, List.getD_cons_succ]
              exact hmax i (by simpa using hi)
        · intro i hi
          cases i with
          | zero =>
              rw [List.getD_cons_zero, List.getD_cons_succ]
              exact lt_of_le_of_lt hs2 hgt
          | succ i =>
              rw [List.getD_cons_succ, List.getD_cons_succ]
              exact hfirst i (by omega)

/-- blockPair with its let bindings unfolded. -/
theorem blockPair_eq (N : ℕ) (frames : List (List ℚ)) (b : ℕ) :
    blockPair N frames b =
      (if (selectDominant (blockSums frames (b * N) (min (b * N + N) frames.length))).1 < 0
       then (-1, 0)
       else ((selectDominant (blockSums frames (b * N) (min (b * N + N) frames.length))).1,
         peakCol frames (b * N) (min (b * N + N) frames.length)
           (selectDominant (blockSums frames (b * N)
             (min (b * N + N) frames.length))).1.toNat)) := rfl

/-- C6: for each block, when some channel has positive priority-weighted sum,
the dominant is the first channel attaining the greatest weighted sum (ties
broken by lowest index) and the recorded peak is that channel's unweighted
peak over the block; when no channel has weighted sum above 0 the block gets
sentinel dominant -1 and peak 0. -/
theorem claim_C6_dominant (N : ℕ) (frames : List (List ℚ)) (b lo hi : ℕ) (sums : List ℚ)
    (hlo : lo = b * N) (hhi : hi = min (lo + N) frames.length)
    (hsums : sums = blockSums frames lo hi) :
    ((∃ j < sums.length, 0 < sums.getD j 0) →
      ∃ k : ℕ, k < sums.length ∧
        (blockPair N frames b).1 = (k : ℤ) ∧
        (blockPair N frames b).2 = peakCol frames lo hi k ∧
        0 < sums.getD k 0 ∧
        (∀ i < sums.length, sums.getD i 0 ≤ sums.getD k 0) ∧
        (∀ i < k, sums.getD i 0 < sums.getD k 0)) ∧
    ((∀ j < sums.length, sums.getD j 0 ≤ 0) →
      blockPair N frames b = (-1, 0)) := by
  subst hlo hhi hsums
  constructor
  · rintro ⟨j, hj, hpos⟩
    have hex : ∃ s ∈ blockSums frames (b * N) (min (b * N + N) frames.length), (0 : ℚ) < s := by
      refine ⟨_, ?_, hpos⟩
      rw [List.getD_eq_getElem?_getD, List.getElem?_eq_getElem hj]
      exact List.getElem_mem hj
    obtain ⟨k, hk, heq, hgt, hmax, hfirst⟩ :=
      selectDominantAux_argmax (blockSums frames (b * N) (min (b * N + N) frames.length))
        (-1) 0 0 hex
    have hds : selectDominant (blockSums frames (b * N) (min (b * N + N) frames.length)) =
        ((k : ℤ), (blockSums frames (b * N) (min (b * N + N) frames.length)).getD k 0) := by
      unfold selectDominant
      rw [heq]
      norm_num
    refine ⟨k, hk, ?_, ?_, hgt, hmax, hfirst⟩
    · rw [blockPair_eq, hds, if_neg (by omega)]
    · rw [blockPair_eq, hds, if_neg (by omega)]
      simp [Int.toNat_natCast]
  · intro hall
    have hall2 : ∀ s ∈ blockSums frames (b * N) (min (b * N + N) frames.length), s ≤ 0 := by
      intro s hs
      obtain ⟨n, hn, rfl⟩ := List.mem_iff_getElem.mp hs
      have := hall n hn
      rwa [List.getD_eq_getElem?_getD, List.getElem?_eq_getElem hn] at this
    have hds : selectDominant (blockSums frames (b * N) (min (b * N + N) frames.length)) =
        (-1, 0) := by
      unfold selectDominant
      exact selectDominantAux_const 0 _ (-1) 0 hall2
    rw [blockPair_eq, hds]
    norm_num

/-- Witness for C6 on two concrete single-frame blocks: one with a positive
winner, one all-zero. -/
theorem claim_C6_dominant_witness :
    (∃ k : ℕ, k < (blockSums [[1, 2 / 5]] 0 1).length ∧
      (blockPair 1 [[1, 2 / 5]] 0).1 = (k : ℤ) ∧
      (blockPair 1 [[1, 2 / 5]] 0).2 = peakCol [[1, 2 / 5]] 0 1 k ∧
      0 < (blockSums [[1, 2 / 5]] 0 1).getD k 0 ∧
      (∀ i < (blockSums [[1, 2 / 5]] 0 1).length,
        (blockSums [[1, 2 / 5]] 0 1).getD i 0 ≤ (blockSums [[1, 2 / 5]] 0 1).getD k 0) ∧
      (∀ i < k, (blockSums [[1, 2 / 5]] 0 1).getD i 0 < (blockSums [[1, 2 / 5]] 0 1).getD k 0)) ∧
    blockPair 1 [[(0 : ℚ), 0]] 0 = (-1, 0) := by
  constructor
  · exact (claim_C6_dominant 1 [[1, 2 / 5]] 0 0 1 (blockSums [[1, 2 / 5]] 0 1)
      (by norm_num) (by norm_num) rfl).1
      ⟨0, by norm_num [blockSums, colSum, val, visemePriority],
        by norm_num [blockSums, colSum, val, visemePriority]⟩
  · exact (claim_C6_dominant 1 [[(0 : ℚ), 0]] 0 0 1 (blockSums [[(0 : ℚ), 0]] 0 1)
      (by norm_num) (by norm_num) rfl).2
      (by intro j hj
          norm_num [blockSums, colSum, val, visemePriority] at hj ⊢
          interval_cases j <;> norm_num)

/-- The fold underlying PeakValue never goes below its start value. -/
theorem peakFold_ge_init :
    ∀ (vals : List ℚ) (init : ℚ),
      init ≤ vals.foldl (fun p v => if p < v then v else p) init := by
  intro vals
  induction vals with
  | nil => intro init; exact le_refl _
  | cons v rest ih =>
      intro init
      rw [List.foldl_cons]
      refine le_trans ?_ (ih (if init < v then v else init))
      by_cases h : init < v
      · rw [if_pos h]; exact le_of_lt h
      · rw [if_neg h]

/-- Every list element is bounded by the PeakValue fold. -/
theorem peakFold_mem_le :
    ∀ (vals : List ℚ) (init x : ℚ), x ∈ vals →
      x ≤ vals.foldl (fun p v => if p < v then v else p) init := by
  intro vals
  induction vals with
  | nil => intro init x hx; simp at hx
  | cons v rest ih =>
      intro init x hx
      rw [List.foldl_cons]
      rcases List.mem_cons.mp hx with rfl | hmem
      · refine le_trans ?_ (peakFold_ge_init rest _)
        by_cases h : init < x
        · rw [if_pos h]
        · rw [if_neg h]; exact not_lt.mp h
      · exact ih _ x hmem

/-- The PeakValue fold returns its start value or some list element. -/
theorem peakFold_mem_or_init :
    ∀ (vals : List ℚ) (init : ℚ),
      vals.foldl (fun p v => if p < v then v else p) init = init ∨
      vals.foldl (fun p v => if p < v then v else p) init ∈ vals := by
  intro vals
  induction vals with
  | nil => intro init; exact Or.inl rfl
  | cons v rest ih =>
      intro init
      rw [List.foldl_cons]
      by_cases h : init < v
      · rw [if_pos h]
        rcases ih v with heq | hmem
        · exact Or.inr (by rw [heq]; simp)
        · exact Or.inr (List.mem_cons_of_mem _ hmem)
      · rw [if_neg h]
        rcases ih init with heq | hmem
        · exact Or.inl heq
        · exact Or.inr (List.mem_cons_of_mem _ hmem)

/-- Every block value of a channel is bounded by its recorded peak. -/
theorem val_le_peakCol (frames : List (List ℚ)) (lo hi j f : ℕ)
    (h1 : lo ≤ f) (h2 : f < hi) : val frames f j ≤ peakCol frames lo hi j := by
  unfold peakCol peakFold
  apply peakFold_mem_le
  refine List.mem_map.mpr ⟨f, ?_, rfl⟩
  rw [List.mem_range']
  exact ⟨f - lo, by omega, by omega⟩

/-- A positive peak is attained at some frame of the block. -/
theorem peakCol_attained (frames : List (List ℚ)) (lo hi j : ℕ)
    (hpos : 0 < peakCol frames lo hi j) :
    ∃ f, lo ≤ f ∧ f < hi ∧ val frames f j = peakCol frames lo hi j := by
  unfold peakCol peakFold at hpos ⊢
  rcases peakFold_mem_or_init ((List.range' lo (hi - lo)).map fun f => val frames f j) 0 with
    heq | hmem
  · rw [heq] at hpos; exact absurd hpos (lt_irrefl 0)
  · obtain ⟨f, hfmem, hfeq⟩ := List.mem_map.mp hmem
    rw [List.mem_range'] at hfmem
    obtain ⟨i, hi1, rfl⟩ := hfmem
    exact ⟨lo + 1 * i, by omega, by omega, hfeq⟩

/-- clamp01 never exceeds 1. -/
theorem clamp01_le_one (x : ℚ) : clamp01 x ≤ 1 :=
  max_le (by norm_num) (min_le_right x 1)

/-- normFrames preserves the number of frames. -/
theorem normFrames_length (N : ℕ) (doms : List ℤ) (peaks : List ℚ)
    (frames : List (List ℚ)) : (normFrames N doms peaks frames).length = frames.length := by
  unfold normFrames
  exact mapWithIndex_length _ frames 0

/-- In-range access into normFrames is normRow of the original row. -/
theorem normFrames_getD (N : ℕ) (doms : List ℤ) (peaks : List ℚ)
    (frames : List (List ℚ)) (f : ℕ) (hf : f < frames.length) :
    (normFrames N doms peaks frames).getD f [] = normRow N doms peaks f (frames.getD f []) := by
  unfold normFrames
  rw [List.getD_eq_getElem?_getD, mapWithIndex_getElem?, List.getElem?_eq_getElem hf]
  simp [List.getD_eq_getElem?_getD, List.getElem?_eq_getElem hf]

/-- normRow with its let bindings unfolded. -/
theorem normRow_eq (N : ℕ) (doms : List ℤ) (peaks : List ℚ) (f : ℕ) (row : List ℚ) :
    normRow N doms peaks f row =
      if peaks.getD (f / N) 0 ≤ 1 / 10000 then row
      else
        mapWithIndex (fun j v =>
          if (j : ℤ) = doms.getD (f / N) (-1) then
            clamp01 (v * (1 / peaks.getD (f / N) 0))
          else if preserveNb N doms (f / N) f j then v
          else 0) 0 row := rfl

/-- BlockDominants entry b is the first component of blockPair b. -/
theorem blockDominants_getD (N : ℕ) (frames : List (List ℚ)) (b : ℕ)
    (hb : b < numBlocks N frames.length) :
    (blockDominants N frames).getD b (-1) = (blockPair N frames b).1 := by
  unfold blockDominants
  rw [List.getD_eq_getElem?_getD, List.getElem?_map, List.getElem?_range hb]
  rfl

/-- BlockPeaks entry b is the second component of blockPair b. -/
theorem blockPeaks_getD (N : ℕ) (frames : List (List ℚ)) (b : ℕ)
    (hb : b < numBlocks N frames.length) :
    (blockPeaks N frames).getD b 0 = (blockPair N frames b).2 := by
  unfold blockPeaks
  rw [List.getD_eq_getElem?_getD, List.getElem?_map, List.getElem?_range hb]
  rfl

/-- A block with sentinel dominant has recorded peak 0. -/
theorem blockPair_snd_of_neg (N : ℕ) (frames : List (List ℚ)) (b : ℕ)
    (h : (blockPair N frames b).1 = -1) : (blockPair N frames b).2 = 0 := by
  rw [blockPair_eq] at h ⊢
  by_cases hneg :
    (selectDominant (blockSums frames (b * N) (min (b * N + N) frames.length))).1 < 0
  · rw [if_pos hneg]
  · rw [if_neg hneg] at h
    simp at h
    omega

/-- A frame index inside block b has block index b. -/
theorem frameBlock_div (N b f : ℕ) (h1 : b * N ≤ f) (h2 : f < b * N + N) : f / N = b :=
  Nat.div_eq_of_lt_le h1 (by rw [Nat.succ_mul]; omega)

/-- C5 amended: a block whose dominant is the sentinel -1 or whose recorded
peak is at most 0.0001 is skipped entirely by the normalizer/blender: every
frame of the block is left completely unmodified, so nothing is rescaled and
nothing is zeroed either. -/
theorem claim_C5_skipped_block (N : ℕ) (frames : List (List ℚ)) (doms : List ℤ)
    (peaks : List ℚ) (b f : ℕ) (hN : 1 ≤ N)
    (hdoms : doms = blockDominants N frames) (hpeaks : peaks = blockPeaks N frames)
    (hb : b < numBlocks N frames.length)
    (hcond : doms.getD b (-1) = -1 ∨ peaks.getD b 0 ≤ 1 / 10000)
    (hf1 : b * N ≤ f) (hf2 : f < b * N + N) :
    (normFrames N doms peaks frames).getD f [] = frames.getD f [] := by
  subst hdoms hpeaks
  have hpk : (blockPeaks N frames).getD b 0 ≤ 1 / 10000 := by
    rcases hcond with hdm | hpk
    · rw [blockDominants_getD N frames b hb] at hdm
      rw [blockPeaks_getD N frames b hb, blockPair_snd_of_neg N frames b hdm]
      norm_num
    · exact hpk
  by_cases hflen : f < frames.length
  · rw [normFrames_getD N _ _ frames f hflen, normRow_eq,
      frameBlock_div N b f hf1 hf2, if_pos hpk]
  · rw [List.getD_eq_default _ _ (by rw [normFrames_length]; omega),
      List.getD_eq_default _ _ (by omega)]

/-- C5 counterexample: one single-frame block whose dominant channel 0 peaks
at 0.00008 (at most 0.0001): the block is skipped wholesale, so channel 1,
which is neither dominant nor a preserved neighbor dominant, keeps its
nonzero value 0.00005 instead of being zeroed as the claim asserts. -/
theorem claim_C5_counterexample :
    blockDominants 1 [[8 / 100000, 5 / 100000]] = [0] ∧
    blockPeaks 1 [[8 / 100000, 5 / 100000]] = [8 / 100000] ∧
    ((8 : ℚ) / 100000) ≤ 1 / 10000 ∧
    preserveNb 1 (blockDominants 1 [[8 / 100000, 5 / 100000]]) 0 0 1 = false ∧
    normFrames 1 (blockDominants 1 [[8 / 100000, 5 / 100000]])
      (blockPeaks 1 [[8 / 100000, 5 / 100000]]) [[8 / 100000, 5 / 100000]] =
      [[8 / 100000, 5 / 100000]] ∧
    ((5 : ℚ) / 100000) ≠ 0 := by
  norm_num [blockDominants, blockPeaks, blockPair_eq, blockSums, colSum, val,
    visemePriority, selectDominant, selectDominantAux, peakCol, peakFold, numBlocks,
    normFrames, normRow, mapWithIndex, preserveNb, prevDom, nextDom, List.range',
    List.range_succ, List.range_zero]

/-- Witness for C5 amended at the concrete skipped block above. -/
theorem claim_C5_skipped_block_witness :
    (normFrames 1 (blockDominants 1 [[8 / 100000, 5 / 100000]])
      (blockPeaks 1 [[8 / 100000, 5 / 100000]]) [[8 / 100000, 5 / 100000]]).getD 0 [] =
      ([[8 / 100000, 5 / 100000]] : List (List ℚ)).getD 0 [] := by
  refine claim_C5_skipped_block 1 [[8 / 100000, 5 / 100000]] _ _ 0 0 le_rfl rfl rfl
    (by norm_num [numBlocks]) (Or.inr ?_) (by norm_num) (by norm_num)
  norm_num [blockPeaks, blockPair_eq, blockSums, colSum, val, visemePriority,
    selectDominant, selectDominantAux, peakCol, peakFold, numBlocks, List.range',
    List.range_succ, List.range_zero]

/-- C7: for every block with a valid dominant channel d whose recorded peak
exceeds 0.0001, after the normalizer/blender runs, the dominant channel's
values in the block are all at most 1 and reach exactly 1 at some frame of
the block (each value is multiplied by 1/peak and clamped to [0,1]), and
every other channel that is not a preserved previous/next dominant in its
half of the block is zeroed. -/
theorem claim_C7_normalizer (N : ℕ) (frames : List (List ℚ)) (doms : List ℤ)
    (peaks : List ℚ) (b d lo hi : ℕ) (hN : 1 ≤ N)
    (hdoms : doms = blockDominants N frames) (hpeaks : peaks = blockPeaks N frames)
    (hb : b < numBlocks N frames.length)
    (hd : doms.getD b (-1) = (d : ℤ))
    (hp : 1 / 10000 < peaks.getD b 0)
    (hlo : lo = b * N) (hhi : hi = min (lo + N) frames.length) :
    (∀ f, lo ≤ f → f < hi → val (normFrames N doms peaks frames) f d ≤ 1) ∧
    (∃ f, lo ≤ f ∧ f < hi ∧ val (normFrames N doms peaks frames) f d = 1) ∧
    (∀ f, lo ≤ f → f < hi → ∀ j, j ≠ d → preserveNb N doms b f j = false →
      val (normFrames N doms peaks frames) f j = 0) := by
  subst hdoms hpeaks hlo hhi
  have h1 : (blockPair N frames b).1 = (d : ℤ) := by
    rw [← blockDominants_getD N frames b hb]; exact hd
  have hpair : blockPair N frames b =
      ((d : ℤ), peakCol frames (b * N) (min (b * N + N) frames.length) d) := by
    rw [blockPair_eq] at h1 ⊢
    by_cases hneg :
      (selectDominant (blockSums frames (b * N) (min (b * N + N) frames.length))).1 < 0
    · rw [if_pos hneg] at h1
      simp at h1
    · rw [if_neg hneg] at h1 ⊢
      simp only at h1
      rw [h1]
      simp [Int.toNat_natCast]
  have hpeakv : (blockPeaks N frames).getD b 0 =
      peakCol frames (b * N) (min (b * N + N) frames.length) d := by
    rw [blockPeaks_getD N frames b hb, hpair]
  rw [hpeakv] at hp
  have hppos : (0 : ℚ) < peakCol frames (b * N) (min (b * N + N) frames.length) d :=
    lt_trans (by norm_num) hp
  have hP0 : peakCol frames (b * N) (min (b * N + N) frames.length) d ≠ 0 := ne_of_gt hppos
  have hrow : ∀ f, b * N ≤ f → f < min (b * N + N) frames.length → ∀ j : ℕ,
      val (normFrames N (blockDominants N frames) (blockPeaks N frames) frames) f j =
        (mapWithIndex (fun j v =>
          if (j : ℤ) = (blockDominants N frames).getD b (-1) then
            clamp01 (v * (1 / (blockPeaks N frames).getD b 0))
          else if preserveNb N (blockDominants N frames) b f j then v
          else 0) 0 (frames.getD f [])).getD j 0 := by
    intro f hf1 hf2 j
    have hflen : f < frames.length := lt_of_lt_of_le hf2 (min_le_right _ _)
    have hdiv : f / N = b :=
      frameBlock_div N b f hf1 (lt_of_lt_of_le hf2 (min_le_left _ _))
    unfold val
    rw [normFrames_getD N _ _ frames f hflen, normRow_eq, hdiv,
      if_neg (by rw [hpeakv]; exact not_le.mpr hp)]
  refine ⟨?_, ?_, ?_⟩
  · intro f hf1 hf2
    rw [hrow f hf1 hf2 d, mapWithIndex_getD]
    by_cases hlen : d < (frames.getD f []).length
    · rw [if_pos hlen, hd, if_pos rfl]
      exact clamp01_le_one _
    · rw [if_neg hlen]
      norm_num
  · obtain ⟨f0, hf1, hf2, hfeq⟩ :=
      peakCol_attained frames (b * N) (min (b * N + N) frames.length) d hppos
    refine ⟨f0, hf1, hf2, ?_⟩
    rw [hrow f0 hf1 hf2 d, mapWithIndex_getD]
    have hlen : d < (frames.getD f0 []).length := by
      by_contra hcon
      push_neg at hcon
      have hz : val frames f0 d = 0 := by
        unfold val
        rw [List.getD_eq_default _ _ hcon]
      rw [hz] at hfeq
      rw [← hfeq] at hppos
      exact absurd hppos (lt_irrefl 0)
    rw [if_pos hlen, hd, if_pos rfl, hpeakv]
    unfold val at hfeq
    rw [hfeq, mul_one_div_cancel hP0]
    norm_num [clamp01]
  · intro f hf1 hf2 j hj hpres
    rw [hrow f hf1 hf2 j, mapWithIndex_getD]
    by_cases hlen : j < (frames.getD f []).length
    · rw [if_pos hlen, hd, if_neg (by exact_mod_cast hj), hpres]
      simp
    · rw [if_neg hlen]

/-- Witness for C7 at a concrete one-block sequence: channel 1 is dominant
with peak 4/5; after normalization it reaches 1 and channel 0 is zeroed. -/
theorem claim_C7_normalizer_witness :
    (∃ f, 0 ≤ f ∧ f < 1 ∧
      val (normFrames 1 (blockDominants 1 [[0, 4 / 5]]) (blockPeaks 1 [[0, 4 / 5]])
        [[0, 4 / 5]]) f 1 = 1) ∧
    val (normFrames 1 (blockDominants 1 [[0, 4 / 5]]) (blockPeaks 1 [[0, 4 / 5]])
      [[0, 4 / 5]]) 0 0 = 0 := by
  have h := claim_C7_normalizer 1 [[0, 4 / 5]] (blockDominants 1 [[0, 4 / 5]])
    (blockPeaks 1 [[0, 4 / 5]]) 0 1 0 1 le_rfl rfl rfl
    (by norm_num [numBlocks])
    (by norm_num [blockDominants, blockPair_eq, blockSums, colSum, val, visemePriority,
      selectDominant, selectDominantAux, peakCol, peakFold, numBlocks, List.range',
      List.range_succ, List.range_zero])
    (by norm_num [blockPeaks, blockPair_eq, blockSums, colSum, val, visemePriority,
      selectDominant, selectDominantAux, peakCol, peakFold, numBlocks, List.range',
      List.range_succ, List.range_zero])
    (by norm_num) (by norm_num)
  refine ⟨h.2.1, h.2.2 0 le_rfl (by norm_num) 0 (by norm_num) ?_⟩
  norm_num [preserveNb, prevDom, nextDom, blockDominants, blockPair_eq, blockSums,
    colSum, val, visemePriority, selectDominant, selectDominantAux, peakCol, peakFold,
    numBlocks, List.range', List.range_succ, List.range_zero]

end OVRLS
